import Mathlib

/-!
Verification of `jdupes-sidecar.py` — a shallow embedding of the script's
duplicate-group resolution logic, together with theorems settling the
specification's claims about it.

Paths are modelled as lists of characters (`Path := List Char`); the path
separator `os.path.sep` is `'/'`.  `os.path.normpath(os.path.abspath(·))` is
modelled as an abstract normalization function `norm : Path → Path`, since the
claims are stated in terms of the normalized paths.  The filesystem is a
partial map from paths to line lists; the contents of non-sidecar files are
irrelevant to the script, so lines suffice.
-/

namespace JdupesSidecar

abbrev Path : Type := List Char

/-- `os.path.sep` on POSIX. -/
def pathSep : Char := '/'

/-- `pre.startsWithL s` mirrors Python's `s.startswith(pre)` (arguments:
prefix first, whole string second). -/
def startsWithL : Path → Path → Bool
  | [], _ => true
  | _ :: _, [] => false
  | a :: as, b :: bs => a == b && startsWithL as bs

/-- Line 37 of the script: `f.startswith(directory + os.path.sep)`. -/
def matchesDir (d f : Path) : Bool :=
  startsWithL (d ++ [pathSep]) f

/-- Embedding of `get_directory_ordered_files` (lines 19–42), parameterized by
the normalization `norm` standing for `os.path.normpath(os.path.abspath(·))`. -/
def get_directory_ordered_files (norm : Path → Path)
    (file_list directories : List Path) : List Path :=
  let dirs := directories.map norm
  let normalized_file_list := file_list.map norm
  let files_in_order := dirs.foldl
    (fun acc directory => acc ++ normalized_file_list.filter (fun f => matchesDir directory f)) []
  let remaining_files := normalized_file_list.filter (fun f => !(files_in_order.contains f))
  files_in_order ++ remaining_files

/-- The blocks placed by the priority pass, one per directory. -/
def priorityBlocks (norm : Path → Path) (file_list directories : List Path) : List (List Path) :=
  directories.map (fun d => (file_list.map norm).filter (fun f => matchesDir (norm d) f))

/-! ### Filesystem model -/

/-- A filesystem: which paths exist, and their contents as lines. -/
def FS : Type := Path → Option (List Path)

def fsExists (fs : FS) (p : Path) : Bool := (fs p).isSome

/-- `open(p).read().splitlines()` for an existing file. -/
def fsRead (fs : FS) (p : Path) : List Path := (fs p).getD []

def fsRemove (fs : FS) (p : Path) : FS :=
  fun q => if q = p then none else fs q

/-- `open(p, 'w')` followed by writing `ls` as lines. -/
def fsWrite (fs : FS) (p : Path) (ls : List Path) : FS :=
  fun q => if q = p then some ls else fs q

/-- `open(p, 'a')` followed by writing `ls` as lines. -/
def fsAppend (fs : FS) (p : Path) (ls : List Path) : FS :=
  fun q => if q = p then some (fsRead fs p ++ ls) else fs q

/-- `os.remove` wrapped in the script's `try`/`except` (lines 229–238 and
259–263): a missing file or a failure (oracle `ok` is `false`) is caught and
logged, leaving the filesystem unchanged. -/
def osRemove (ok : Path → Bool) (fs : FS) (f : Path) : FS :=
  if fsExists fs f && ok f then fsRemove fs f else fs

/-- Options of the script relevant to group processing. -/
structure Config where
  sidecar_extension : Path
  no_merge_existing_sidecars : Bool
  no_delete_duplicate_sidecar : Bool
  dry_run : Bool

/-- The deletion loop, lines 229–238. -/
def deleteFold (ok : Path → Bool) (fs : FS) (dels : List Path) : FS :=
  dels.foldl (fun s f => osRemove ok s f) fs

/-- One iteration of the sidecar-content collection loop, lines 244–265:
append the deleted file's path; if merging, read an existing victim sidecar's
lines and (by default) delete it. -/
def mergeStep (cfg : Config) (ok : Path → Bool) (st : FS × List Path) (df : Path) :
    FS × List Path :=
  let s := st.1
  let cs := st.2 ++ [df]
  if cfg.no_merge_existing_sidecars then (s, cs)
  else
    let dsf := df ++ cfg.sidecar_extension
    if fsExists s dsf then
      let cs := cs ++ fsRead s dsf
      if cfg.no_delete_duplicate_sidecar then (s, cs)
      else (osRemove ok s dsf, cs)
    else (s, cs)

/-- Non-dry-run processing of one ordered group (lines 227–282).  An empty
group is skipped (line 190).  After deleting the delete set and collecting
sidecar contents, the survivor's sidecar is appended to if it exists and
created otherwise (lines 267–282). -/
def processGroupReal (cfg : Config) (ok : Path → Bool) (fs : FS) : List Path → FS
  | [] => fs
  | keep :: delete_files =>
    let fs1 := deleteFold ok fs delete_files
    let sidecar_file := keep ++ cfg.sidecar_extension
    let st := delete_files.foldl (mergeStep cfg ok) (fs1, [])
    if fsExists st.1 sidecar_file then fsAppend st.1 sidecar_file st.2
    else fsWrite st.1 sidecar_file st.2

/-! ### Dry-run report lines (lines 196–226) -/

def wouldKeepLine (p : Path) : Path := "Would keep file: ".toList ++ p

def wouldDeleteLine (p : Path) : Path := "Would delete duplicate file: ".toList ++ p

def wouldMergeLine (dsf sf : Path) : Path :=
  "Would merge existing sidecar file: ".toList ++ dsf ++ " into ".toList ++ sf

def wouldDeleteSidecarLine (p : Path) : Path := "Would delete sidecar file: ".toList ++ p

def wouldNotDeleteSidecarLine (p : Path) : Path :=
  "Would not delete sidecar file: ".toList ++ p

def wouldCreateLine (sf : Path) : Path :=
  "Would create sidecar file: ".toList ++ sf ++ " with contents:".toList

def contentLine (c : Path) : Path := "  ".toList ++ c

/-- One iteration of the dry-run sidecar-content loop, lines 205–221. -/
def dryStep (cfg : Config) (fs : FS) (sidecar_file : Path)
    (st : List Path × List Path) (df : Path) : List Path × List Path :=
  let lines := st.1
  let cs := st.2 ++ [df]
  if cfg.no_merge_existing_sidecars then (lines, cs)
  else
    let dsf := df ++ cfg.sidecar_extension
    if fsExists fs dsf then
      let lines := lines ++ [wouldMergeLine dsf sidecar_file]
      let cs := cs ++ fsRead fs dsf
      if cfg.no_delete_duplicate_sidecar then (lines ++ [wouldNotDeleteSidecarLine dsf], cs)
      else (lines ++ [wouldDeleteSidecarLine dsf], cs)
    else (lines, cs)

/-- Dry-run processing of one ordered group (lines 196–226): produces report
lines only; the filesystem is read but never written. -/
def processGroupDry (cfg : Config) (fs : FS) : List Path → List Path
  | [] => []
  | keep :: delete_files =>
    let sidecar_file := keep ++ cfg.sidecar_extension
    let st := delete_files.foldl (dryStep cfg fs sidecar_file) ([], [])
    [wouldKeepLine keep] ++ delete_files.map wouldDeleteLine ++ st.1
      ++ [wouldCreateLine sidecar_file] ++ st.2.map contentLine ++ [[]]

/-! ### The run, lines 158–299 -/

inductive RunResult : Type
  | aborted (fs : FS)
  | completed (fs : FS)

/-- The dry-run report for the whole run: groups are processed against the
unmodified filesystem and the lines concatenated (lines 185–226). -/
def dryReport (cfg : Config) (norm : Path → Path) (dirs : List Path) (fs : FS)
    (groups : List (List Path)) : List Path :=
  (groups.map (fun g => processGroupDry cfg fs (get_directory_ordered_files norm g dirs))).flatten

/-- Non-dry-run processing of all groups in order, threading the filesystem. -/
def runReal (cfg : Config) (ok : Path → Bool) (norm : Path → Path) (dirs : List Path)
    (fs : FS) (groups : List (List Path)) : FS :=
  groups.foldl (fun s g => processGroupReal cfg ok s (get_directory_ordered_files norm g dirs)) fs

/-- The run from the scanner's return (lines 158–299): a non-zero exit status
or an unparseable report (`parsed = none`, i.e. `json.JSONDecodeError`) aborts
via `sys.exit(1)` with the filesystem untouched; otherwise the groups are
processed, and a dry run ends by writing the report to `output_file`
(lines 290–299). -/
def runMain (cfg : Config) (ok : Path → Bool) (norm : Path → Path) (dirs : List Path)
    (output_file : Path) (returncode : Nat) (parsed : Option (List (List Path)))
    (fs : FS) : RunResult :=
  if returncode ≠ 0 then .aborted fs
  else
    match parsed with
    | none => .aborted fs
    | some groups =>
      if cfg.dry_run then
        .completed (fsWrite fs output_file (dryReport cfg norm dirs fs groups))
      else
        .completed (runReal cfg ok norm dirs fs groups)

/-- The lines an existing victim sidecar contributes during the merge
(lines 248–254): the sidecar's lines if it exists, nothing otherwise. -/
def sidecarLinesOf (cfg : Config) (s : FS) (df : Path) : List Path :=
  if fsExists s (df ++ cfg.sidecar_extension) then fsRead s (df ++ cfg.sidecar_extension)
  else []

/-! ### Concrete instances used by witnesses and counterexamples -/

def extD : Path := ".dupes".toList

/-- Default options, dry-run mode. -/
def cfgDry : Config := ⟨extD, false, false, true⟩

/-- Default options, normal (mutating) mode. -/
def cfgReal : Config := ⟨extD, false, false, false⟩

/-- Oracle under which every `os.remove` succeeds. -/
def okAll : Path → Bool := fun _ => true

/-- Oracle under which every `os.remove` fails (e.g. permission denied). -/
def okNone : Path → Bool := fun _ => false

def fsEmpty : FS := fun _ => none

def pathX : Path := "/a/b/x".toList

def pathY : Path := "/a/b/y".toList

/-- A filesystem holding just the two regular files `/a/b/x` and `/a/b/y`. -/
def fsXY : FS := fun q => if q = pathX then some [] else if q = pathY then some [] else none

def pathB : Path := "/data/b/file.txt".toList

def pathOldDup : Path := "/data/old/dup.txt".toList

def keepA : Path := "/data/a/file.txt".toList

/-- A filesystem where `/data/b/file.txt` exists and already has a sidecar
containing `/data/old/dup.txt`. -/
def fsB : FS := fun q =>
  if q = pathB then some []
  else if q = pathB ++ extD then some [pathOldDup]
  else none

/-- A filesystem holding `/a/b/x` and `/a/b/y`, where `/a/b/y` already has a
sidecar containing `/data/old/dup.txt`. -/
def fsC : FS := fun q =>
  if q = pathX then some []
  else if q = pathY then some []
  else if q = pathY ++ extD then some [pathOldDup]
  else none

example : get_directory_ordered_files id
    ["/data/b/f".toList, "/data/a/f".toList] ["/data/a".toList] =
    ["/data/a/f".toList, "/data/b/f".toList] := by decide

example : get_directory_ordered_files id
    ["/a/b/x".toList] ["/a".toList, "/a/b".toList] =
    ["/a/b/x".toList, "/a/b/x".toList] := by decide

/-! ### Helper lemmas about `startsWithL` and the ordering function -/

theorem startsWithL_iff (p s : Path) : startsWithL p s = true ↔ ∃ t, s = p ++ t := by
  induction p generalizing s with
  | nil => simp [startsWithL]
  | cons a as ih =>
    cases s with
    | nil => simp [startsWithL]
    | cons b bs =>
      simp only [startsWithL, Bool.and_eq_true, beq_iff_eq, ih, List.cons_append,
        List.cons.injEq]
      constructor
      · rintro ⟨rfl, t, rfl⟩
        exact ⟨t, rfl, rfl⟩
      · rintro ⟨t, rfl, rfl⟩
        exact ⟨rfl, t, rfl⟩

theorem foldl_append_eq_flatten {α β : Type} (f : α → List β) (l : List α) :
    ∀ init : List β,
      l.foldl (fun acc a => acc ++ f a) init = init ++ (l.map f).flatten := by
  induction l with
  | nil => intro init; simp
  | cons a l ih => intro init; simp [List.foldl_cons, ih, List.append_assoc]

/-- `get_directory_ordered_files` decomposed: the priority-pass blocks flattened,
followed by the input paths that landed in no block. -/
theorem gdof_eq (norm : Path → Path) (fl ds : List Path) :
    get_directory_ordered_files norm fl ds =
      (priorityBlocks norm fl ds).flatten ++
        (fl.map norm).filter
          (fun f => !((priorityBlocks norm fl ds).flatten.contains f)) := by
  unfold get_directory_ordered_files priorityBlocks
  simp [foldl_append_eq_flatten, List.map_map, Function.comp_def]

theorem mem_priorityFlatten_iff (norm : Path → Path) (fl ds : List Path) (f : Path) :
    f ∈ (priorityBlocks norm fl ds).flatten ↔
      f ∈ fl.map norm ∧ ∃ d ∈ ds, matchesDir (norm d) f = true := by
  rw [List.mem_flatten]
  constructor
  · rintro ⟨l, hl, hfl⟩
    rw [priorityBlocks, List.mem_map] at hl
    obtain ⟨d, hd, rfl⟩ := hl
    rw [List.mem_filter] at hfl
    exact ⟨hfl.1, d, hd, hfl.2⟩
  · rintro ⟨hf, d, hd, hmatch⟩
    refine ⟨(fl.map norm).filter (fun f => matchesDir (norm d) f), ?_, ?_⟩
    · rw [priorityBlocks, List.mem_map]
      exact ⟨d, hd, rfl⟩
    · exact List.mem_filter.2 ⟨hf, hmatch⟩

theorem count_filter_eq {α : Type} [BEq α] [LawfulBEq α] (p : α → Bool) (l : List α) (a : α) :
    (l.filter p).count a = if p a = true then l.count a else 0 := by
  by_cases h : p a = true
  · rw [if_pos h]
    exact List.count_filter h
  · rw [if_neg h, List.count_eq_zero]
    intro hmem
    exact h (List.mem_filter.1 hmem).2

theorem count_beq_indep {α : Type} [DecidableEq α] [BEq α] [LawfulBEq α]
    (a : α) (l : List α) :
    List.count a l = @List.count α instBEqOfDecidableEq a l := by
  induction l with
  | nil => rfl
  | cons b l ih =>
    rw [List.count_cons, @List.count_cons α instBEqOfDecidableEq, ih]
    by_cases h : b = a
    · simp [h, instBEqOfDecidableEq]
    · simp [h, instBEqOfDecidableEq]

theorem count_priorityFlatten (norm : Path → Path) (fl ds : List Path) (a : Path) :
    ((priorityBlocks norm fl ds).flatten).count a =
      (ds.countP (fun d => matchesDir (norm d) a)) * ((fl.map norm).count a) := by
  induction ds with
  | nil => simp [priorityBlocks]
  | cons d ds ih =>
    have hstep : priorityBlocks norm fl (d :: ds) =
        ((fl.map norm).filter (fun f => matchesDir (norm d) f)) :: priorityBlocks norm fl ds := by
      simp [priorityBlocks]
    rw [hstep, List.flatten_cons, List.count_append, ih, List.countP_cons, count_filter_eq]
    by_cases h : matchesDir (norm d) a = true
    · simp only [h, if_pos]
      ring
    · simp [h]

/-! ### C8 and C10 -/

/-- C8: a path matches a priority directory exactly when it starts with the
directory followed by the path separator; the directory itself never matches;
a path extending the directory with a non-separator character (e.g. the
sibling `/data/ab` relative to `/data/a`) never matches. -/
theorem matchesDir_characterization :
    (∀ d f : Path, matchesDir d f = true ↔ ∃ t, f = (d ++ [pathSep]) ++ t)
      ∧ (∀ d : Path, matchesDir d d = false)
      ∧ (∀ (d rest : Path) (c : Char), c ≠ pathSep →
          matchesDir d (d ++ c :: rest) = false) := by
  have hiff : ∀ d f : Path, matchesDir d f = true ↔ ∃ t, f = (d ++ [pathSep]) ++ t :=
    fun d f => startsWithL_iff (d ++ [pathSep]) f
  refine ⟨hiff, ?_, ?_⟩
  · intro d
    rw [Bool.eq_false_iff]
    intro h
    obtain ⟨t, ht⟩ := (hiff d d).1 h
    have := congrArg List.length ht
    simp [List.length_append] at this
  · intro d rest c hc
    rw [Bool.eq_false_iff]
    intro h
    obtain ⟨t, ht⟩ := (hiff d _).1 h
    rw [List.append_assoc] at ht
    have h2 := List.append_cancel_left ht
    rw [List.singleton_append] at h2
    injection h2 with h3 _
    exact hc h3

theorem matchesDir_characterization_witness :
    (matchesDir "/data/a".toList "/data/a/f".toList = true ↔
      ∃ t, "/data/a/f".toList = ("/data/a".toList ++ [pathSep]) ++ t)
    ∧ matchesDir "/data/a".toList "/data/a".toList = false
    ∧ matchesDir "/data/a".toList ("/data/a".toList ++ 'b' :: [] ) = false :=
  ⟨matchesDir_characterization.1 _ _, matchesDir_characterization.2.1 _,
    matchesDir_characterization.2.2 "/data/a".toList [] 'b' (by decide)⟩

/-- C10: completeness of the ordering — every normalized input path occurs in
the output of `get_directory_ordered_files`: a path matching some priority
directory is placed during the priority pass, and every other path is appended
by the remaining-paths pass; no input path is ever dropped. -/
theorem ordered_files_complete (norm : Path → Path) (fl ds : List Path) (f : Path)
    (hf : f ∈ fl.map norm) :
    f ∈ get_directory_ordered_files norm fl ds := by
  rw [gdof_eq]
  by_cases h : f ∈ (priorityBlocks norm fl ds).flatten
  · exact List.mem_append_left _ h
  · refine List.mem_append_right _ ?_
    rw [List.mem_filter]
    refine ⟨hf, ?_⟩
    simpa [List.elem_iff] using h

theorem ordered_files_complete_witness :
    ("/data/q/f".toList ∈ (["/data/q/f".toList].map id)) ∧
      "/data/q/f".toList ∈
        get_directory_ordered_files id ["/data/q/f".toList] ["/data/a".toList] :=
  ⟨by decide, ordered_files_complete id _ _ _ (by decide)⟩

/-! ### C1: the ordering as a permutation of the inputs -/

/-- C1 counterexample: a path nested under two of the priority directories is
emitted twice by `get_directory_ordered_files`, so the output length is 2
while there is only 1 distinct normalized input path — the claimed
deduplication does not happen. -/
theorem ordered_files_not_dedup :
    ¬ ((get_directory_ordered_files id ["/a/b/x".toList]
          ["/a".toList, "/a/b".toList]).length
        = ((["/a/b/x".toList].map id).dedup).length) := by decide

/-- C1 (amended): when the normalized input paths are pairwise distinct and
each of them lies under at most one priority directory, the output of
`get_directory_ordered_files` is a permutation of the normalized input paths
(equivalently, of their deduplication): nothing dropped, nothing duplicated.
Without those hypotheses a path is emitted once per priority directory it lies
under (or once per input occurrence), so nested priority directories or
repeated inputs do duplicate entries. -/
theorem ordered_files_perm (norm : Path → Path) (fl ds : List Path)
    (h1 : (fl.map norm).Nodup)
    (h2 : ∀ f ∈ fl.map norm, (ds.countP (fun d => matchesDir (norm d) f)) ≤ 1) :
    (get_directory_ordered_files norm fl ds).Perm (fl.map norm) := by
  rw [List.perm_iff_count]
  intro a
  simp only [← count_beq_indep]
  rw [gdof_eq, List.count_append, count_priorityFlatten, count_filter_eq]
  by_cases ha : a ∈ fl.map norm
  · have hm : (fl.map norm).count a = 1 := by
      rw [count_beq_indep]
      exact List.count_eq_one_of_mem h1 ha
    have hk := h2 a ha
    rw [hm]
    set k := ds.countP (fun d => matchesDir (norm d) a) with hkdef
    interval_cases k
    · have hnotmem : a ∉ (priorityBlocks norm fl ds).flatten := by
        intro hmem
        have := List.count_pos_iff.2 hmem
        rw [count_priorityFlatten, ← hkdef, hm] at this
        omega
      have hcon : ((priorityBlocks norm fl ds).flatten.contains a) = false := by
        rw [← Bool.not_eq_true, List.elem_iff]
        exact hnotmem
      simp only [hcon, Bool.not_false, if_pos, hm, ← hkdef]
    · have hmem : a ∈ (priorityBlocks norm fl ds).flatten := by
        rw [← List.count_pos_iff, count_priorityFlatten, ← hkdef, hm]
        omega
      have hcon : ((priorityBlocks norm fl ds).flatten.contains a) = true := by
        rw [List.elem_iff]
        exact hmem
      simp only [hcon, Bool.not_true, if_neg, Bool.false_eq_true, not_false_eq_true,
        ← hkdef]
  · have hm : (fl.map norm).count a = 0 := List.count_eq_zero.mpr ha
    rw [hm]
    by_cases hc : ((priorityBlocks norm fl ds).flatten.contains a) = true
    · simp [hc]
    · rw [Bool.not_eq_true] at hc
      simp [hc, hm]

theorem ordered_files_perm_witness :
    ((["/data/a/f".toList, "/data/b/f".toList].map id).Nodup
      ∧ ∀ f ∈ ["/data/a/f".toList, "/data/b/f".toList].map id,
          (["/data/a".toList].countP (fun d => matchesDir (id d) f)) ≤ 1)
    ∧ (get_directory_ordered_files id ["/data/a/f".toList, "/data/b/f".toList]
        ["/data/a".toList]).Perm
        (["/data/a/f".toList, "/data/b/f".toList].map id) :=
  ⟨⟨by decide, by decide⟩, ordered_files_perm id _ _ (by decide) (by decide)⟩

/-! ### C6: priority order of the output -/

theorem indexOf_beq_indep {α : Type} [DecidableEq α] [BEq α] [LawfulBEq α]
    (a : α) (l : List α) :
    List.indexOf a l = @List.indexOf α instBEqOfDecidableEq a l := by
  induction l with
  | nil => rfl
  | cons b l ih =>
    have h1 : (b == a) = decide (b = a) := by
      rw [Bool.eq_iff_iff]
      simp
    rw [List.indexOf_cons, @List.indexOf_cons α b l a instBEqOfDecidableEq, ih, h1]
    rfl

theorem length_priorityBlocks (norm : Path → Path) (fl ds : List Path) :
    (priorityBlocks norm fl ds).length = ds.length := by
  simp [priorityBlocks]

theorem getElem_priorityBlocks (norm : Path → Path) (fl ds : List Path) (k : Nat)
    (hk : k < ds.length) :
    (priorityBlocks norm fl ds).get
        ⟨k, by rw [length_priorityBlocks]; exact hk⟩ =
      (fl.map norm).filter (fun f => matchesDir (norm ds[k]) f) := by
  simp [priorityBlocks]

/-- C6: for distinct paths P under `priorityDirs[i]` and Q under
`priorityDirs[j]` with `i < j`, neither under an earlier-ranked priority
directory, P precedes Q in the output of `get_directory_ordered_files`;
moreover the output is the priority-pass placements followed by exactly the
input paths matching no priority directory, filtered out of the normalized
input list — i.e. the unmatched paths come last, in their relative input
order. -/
theorem ordered_files_priority_order (norm : Path → Path) (fl ds : List Path) :
    (∀ P Q : Path, ∀ i j : Nat, ∀ hi : i < ds.length, ∀ hj : j < ds.length,
      i < j → P ∈ fl.map norm → Q ∈ fl.map norm → P ≠ Q →
      matchesDir (norm ds[i]) P = true →
      matchesDir (norm ds[j]) Q = true →
      (∀ k, (hk : k < ds.length) → k < i → matchesDir (norm ds[k]) P = false) →
      (∀ k, (hk : k < ds.length) → k < j → matchesDir (norm ds[k]) Q = false) →
      (get_directory_ordered_files norm fl ds).indexOf P
        < (get_directory_ordered_files norm fl ds).indexOf Q)
    ∧ get_directory_ordered_files norm fl ds =
        (priorityBlocks norm fl ds).flatten
          ++ (fl.map norm).filter (fun f => ds.all (fun d => !(matchesDir (norm d) f)))
    ∧ (∀ f ∈ (priorityBlocks norm fl ds).flatten, ∃ d ∈ ds, matchesDir (norm d) f = true) := by
  refine ⟨?_, ?_, ?_⟩
  · intro P Q i j hi hj hij hP hQ hPQ hPi hQj hPfirst hQfirst
    have hlen : (priorityBlocks norm fl ds).length = ds.length :=
      length_priorityBlocks norm fl ds
    have hib : i < (priorityBlocks norm fl ds).length := by omega
    have hPA : P ∈ ((priorityBlocks norm fl ds).take (i+1)).flatten := by
      rw [List.take_succ, List.flatten_append]
      refine List.mem_append_right _ ?_
      rw [List.getElem?_eq_getElem hib]
      have hPblock : P ∈ (priorityBlocks norm fl ds).get ⟨i, hib⟩ := by
        rw [getElem_priorityBlocks norm fl ds i hi]
        exact List.mem_filter.2 ⟨hP, hPi⟩
      simpa using hPblock
    have hQA : Q ∉ ((priorityBlocks norm fl ds).take (i+1)).flatten := by
      intro hQmem
      rw [List.mem_flatten] at hQmem
      obtain ⟨b, hb, hQb⟩ := hQmem
      obtain ⟨k, hk, hbk⟩ := List.mem_iff_getElem.1 hb
      have hk2 : k < i + 1 := by
        have := List.length_take (i+1) (priorityBlocks norm fl ds)
        omega
      have hkd : k < ds.length := by omega
      have hkb : k < (priorityBlocks norm fl ds).length := by omega
      have hbeq : b = (fl.map norm).filter (fun f => matchesDir (norm ds[k]) f) := by
        rw [← hbk, List.getElem_take]
        exact getElem_priorityBlocks norm fl ds k hkd
      rw [hbeq, List.mem_filter] at hQb
      have hfalse := hQfirst k hkd (by omega)
      rw [hfalse] at hQb
      exact Bool.false_ne_true hQb.2
    have hsplit0 : ∀ (L : List (List Path)) (n : Nat) (rem : List Path),
        L.flatten ++ rem = (L.take n).flatten ++ ((L.drop n).flatten ++ rem) := by
      intro L n rem
      conv_lhs => rw [← List.take_append_drop n L]
      rw [List.flatten_append, List.append_assoc]
    rw [gdof_eq, hsplit0 (priorityBlocks norm fl ds) (i+1) _,
      indexOf_beq_indep P, indexOf_beq_indep Q,
      List.indexOf_append_of_mem hPA, List.indexOf_append_of_not_mem hQA]
    have hlt : @List.indexOf Path instBEqOfDecidableEq P
        ((priorityBlocks norm fl ds).take (i+1)).flatten
        < (((priorityBlocks norm fl ds).take (i+1)).flatten).length :=
      List.indexOf_lt_length.2 hPA
    omega
  · rw [gdof_eq]
    congr 1
    apply List.filter_congr
    intro f hf
    rw [Bool.eq_iff_iff, Bool.not_eq_true', List.all_eq_true]
    constructor
    · intro hcon d hd
      rw [Bool.not_eq_true']
      by_contra hne
      rw [Bool.not_eq_false] at hne
      have hmem : f ∈ (priorityBlocks norm fl ds).flatten :=
        (mem_priorityFlatten_iff norm fl ds f).2 ⟨hf, d, hd, hne⟩
      have hcon2 : (priorityBlocks norm fl ds).flatten.contains f = true :=
        List.elem_iff.mpr hmem
      rw [hcon2] at hcon
      simp at hcon
    · intro hall
      by_contra hcon
      rw [Bool.not_eq_false] at hcon
      have hFmem : f ∈ (priorityBlocks norm fl ds).flatten := List.elem_iff.mp hcon
      obtain ⟨-, d, hd, hmatch⟩ := (mem_priorityFlatten_iff norm fl ds f).1 hFmem
      have hd2 := hall d hd
      rw [Bool.not_eq_true'] at hd2
      rw [hd2] at hmatch
      exact Bool.false_ne_true hmatch
  · intro f hf
    exact ((mem_priorityFlatten_iff norm fl ds f).1 hf).2

theorem ordered_files_priority_order_witness :
    (get_directory_ordered_files id ["/b/y".toList, "/a/x".toList]
        ["/a".toList, "/b".toList]).indexOf "/a/x".toList
      < (get_directory_ordered_files id ["/b/y".toList, "/a/x".toList]
        ["/a".toList, "/b".toList]).indexOf "/b/y".toList :=
  (ordered_files_priority_order id ["/b/y".toList, "/a/x".toList]
      ["/a".toList, "/b".toList]).1
    "/a/x".toList "/b/y".toList 0 1 (by decide) (by decide) (by decide) (by decide)
    (by decide) (by decide) (by decide) (by decide)
    (fun k hk hki => absurd hki (by omega))
    (fun k hk hkj => by
      have hk0 : k = 0 := by omega
      subst hk0
      rfl)

/-! ### The deletion loop -/

theorem deleteFold_spec (ok : Path → Bool) :
    ∀ (dels : List Path) (fs : FS) (q : Path),
      deleteFold ok fs dels q = if q ∈ dels ∧ ok q = true then none else fs q := by
  intro dels
  induction dels with
  | nil => intro fs q; simp [deleteFold]
  | cons f dels ih =>
    intro fs q
    rw [deleteFold, List.foldl_cons]
    rw [show (List.foldl (fun s f => osRemove ok s f) (osRemove ok fs f) dels)
        = deleteFold ok (osRemove ok fs f) dels from rfl, ih]
    by_cases hq : q ∈ dels ∧ ok q = true
    · rw [if_pos hq, if_pos ⟨List.mem_cons_of_mem f hq.1, hq.2⟩]
    · rw [if_neg hq]
      by_cases hqf : q = f
      · subst hqf
        by_cases hok : ok q = true
        · rw [if_pos ⟨List.mem_cons_self q dels, hok⟩, osRemove]
          by_cases hex : fsExists fs q = true
          · rw [if_pos (by rw [hex, hok]; rfl)]
            simp [fsRemove]
          · have hcond : ¬ ((fsExists fs q && ok q) = true) := by
              rw [Bool.and_eq_true]
              exact fun hc => hex hc.1
            rw [if_neg hcond]
            rw [fsExists] at hex
            cases hfs : fs q with
            | none => rfl
            | some v =>
              rw [hfs] at hex
              simp at hex
        · have hcond : ¬ (q ∈ q :: dels ∧ ok q = true) := by
            rintro ⟨-, hc⟩
            exact hok hc
          rw [if_neg hcond, osRemove]
          have hcond2 : ¬ ((fsExists fs q && ok q) = true) := by
            rw [Bool.and_eq_true]
            rintro ⟨-, hc⟩
            exact hok hc
          rw [if_neg hcond2]
      · have hcond : ¬ (q ∈ f :: dels ∧ ok q = true) := by
          rintro ⟨hc, hok⟩
          rcases List.mem_cons.1 hc with h | h
          · exact hqf h
          · exact hq ⟨h, hok⟩
        rw [if_neg hcond, osRemove]
        by_cases hrem : (fsExists fs f && ok f) = true
        · rw [if_pos hrem]
          simp [fsRemove, hqf]
        · rw [if_neg hrem]

/-! ### C5: scanner failure aborts before mutation -/

/-- C5: if the scanner exits non-zero or its JSON report cannot be parsed, the
run aborts with the filesystem untouched — no deletion, no sidecar write. -/
theorem scanner_failure_aborts (cfg : Config) (ok : Path → Bool) (norm : Path → Path)
    (dirs : List Path) (output_file : Path) (returncode : Nat)
    (parsed : Option (List (List Path))) (fs : FS)
    (h : returncode ≠ 0 ∨ parsed = none) :
    runMain cfg ok norm dirs output_file returncode parsed fs = .aborted fs := by
  by_cases hrc : returncode = 0
  · subst hrc
    rcases h with h | h
    · exact absurd rfl h
    · simp [runMain, h]
  · simp [runMain, hrc]

theorem scanner_failure_aborts_witness :
    ((1 : Nat) ≠ 0 ∨ (some [] : Option (List (List Path))) = none)
    ∧ runMain cfgReal okAll id [] "dry_run_output.txt".toList 1 (some []) fsEmpty =
        .aborted fsEmpty :=
  ⟨Or.inl (by decide),
    scanner_failure_aborts cfgReal okAll id [] "dry_run_output.txt".toList 1 (some [])
      fsEmpty (Or.inl (by decide))⟩

/-! ### C4: dry run mutates nothing but the report file -/

/-- C4: a dry run completes with the filesystem unchanged except for the final
report written to the caller-specified output file: every other path's
existence and contents are identical before and after. -/
theorem dry_run_no_mutation (cfg : Config) (ok : Path → Bool) (norm : Path → Path)
    (dirs : List Path) (output_file : Path) (groups : List (List Path)) (fs : FS)
    (hd : cfg.dry_run = true) :
    runMain cfg ok norm dirs output_file 0 (some groups) fs =
      .completed (fsWrite fs output_file (dryReport cfg norm dirs fs groups))
    ∧ ∀ q : Path, q ≠ output_file →
        fsWrite fs output_file (dryReport cfg norm dirs fs groups) q = fs q := by
  constructor
  · simp [runMain, hd]
  · intro q hq
    simp [fsWrite, hq]

theorem dry_run_no_mutation_witness :
    (cfgDry.dry_run = true)
    ∧ runMain cfgDry okAll id [] "dry_run_output.txt".toList 0 (some [[pathX, pathY]]) fsXY =
        .completed (fsWrite fsXY "dry_run_output.txt".toList
          (dryReport cfgDry id [] fsXY [[pathX, pathY]]))
    ∧ fsWrite fsXY "dry_run_output.txt".toList
        (dryReport cfgDry id [] fsXY [[pathX, pathY]]) pathX = fsXY pathX :=
  ⟨rfl,
    (dry_run_no_mutation cfgDry okAll id [] "dry_run_output.txt".toList [[pathX, pathY]]
      fsXY rfl).1,
    (dry_run_no_mutation cfgDry okAll id [] "dry_run_output.txt".toList [[pathX, pathY]]
      fsXY rfl).2 pathX (by decide)⟩

/-! ### C3: small groups -/

/-- C3 counterexample: a group with a single path (one distinct path) is not
skipped: in dry-run mode the script emits report lines for it (a keep line, a
create-sidecar line and a blank line), contradicting the claim that such a
group produces no report lines. -/
theorem singleton_group_emits_report :
    processGroupDry cfgDry fsEmpty ["/x".toList] ≠ [] := by decide

/-- C3 (amended): only an empty ordered group is skipped outright.  A group
with exactly one path deletes nothing and, in non-dry-run mode, leaves every
other path unchanged but creates (empty) or touches the survivor's sidecar;
in dry-run mode it emits keep/create-sidecar/blank report lines.  (A group
listing one distinct path several times is processed like any other group and
can even delete that path.) -/
theorem small_group_behavior (cfg : Config) (ok : Path → Bool) (fs : FS) (p : Path) :
    (processGroupReal cfg ok fs [] = fs ∧ processGroupDry cfg fs [] = [])
    ∧ (∀ q : Path, q ≠ p ++ cfg.sidecar_extension →
        processGroupReal cfg ok fs [p] q = fs q)
    ∧ processGroupReal cfg ok fs [p] (p ++ cfg.sidecar_extension) =
        some (fsRead fs (p ++ cfg.sidecar_extension))
    ∧ processGroupDry cfg fs [p] =
        [wouldKeepLine p, wouldCreateLine (p ++ cfg.sidecar_extension), []] := by
  refine ⟨⟨rfl, rfl⟩, ?_, ?_, ?_⟩
  · intro q hq
    simp only [processGroupReal, deleteFold, List.foldl_nil]
    by_cases hex : fsExists fs (p ++ cfg.sidecar_extension) = true
    · rw [if_pos hex]
      simp [fsAppend, hq]
    · rw [if_neg hex]
      simp [fsWrite, hq]
  · simp only [processGroupReal, deleteFold, List.foldl_nil]
    by_cases hex : fsExists fs (p ++ cfg.sidecar_extension) = true
    · rw [if_pos hex]
      simp [fsAppend]
    · rw [if_neg hex]
      rw [fsExists] at hex
      rw [fsRead]
      cases hfs : fs (p ++ cfg.sidecar_extension) with
      | none => simp [fsWrite]
      | some v =>
        rw [hfs] at hex
        simp at hex
  · simp [processGroupDry]

theorem small_group_behavior_witness :
    (processGroupReal cfgReal okAll fsXY ["/q".toList] pathX = fsXY pathX)
    ∧ processGroupReal cfgReal okAll fsXY ["/q".toList] ("/q".toList ++ cfgReal.sidecar_extension)
        = some (fsRead fsXY ("/q".toList ++ cfgReal.sidecar_extension))
    ∧ processGroupDry cfgReal fsXY ["/q".toList] =
        [wouldKeepLine "/q".toList,
          wouldCreateLine ("/q".toList ++ cfgReal.sidecar_extension), []] :=
  ⟨(small_group_behavior cfgReal okAll fsXY "/q".toList).2.1 pathX (by decide),
    (small_group_behavior cfgReal okAll fsXY "/q".toList).2.2.1,
    (small_group_behavior cfgReal okAll fsXY "/q".toList).2.2.2⟩

/-! ### C2: survivor safety -/

/-- C2 is violated by the code: with nested priority directories the ordered
group lists the keep path again among the delete files, and the script then
deletes the keep file itself.  At the failing input, `/a/b/x` is the
designated keep file of its group (index 0), also occurs in the delete set
(indices 1..), existed beforehand — and no longer exists after the group is
processed in non-dry-run mode. -/
theorem keep_file_deleted_on_nested_dirs :
    (get_directory_ordered_files id [pathX, pathY] ["/a".toList, "/a/b".toList]).head?
        = some pathX
    ∧ pathX ∈ (get_directory_ordered_files id [pathX, pathY]
        ["/a".toList, "/a/b".toList]).tail
    ∧ fsXY pathX = some []
    ∧ processGroupReal cfgReal okAll fsXY
        (get_directory_ordered_files id [pathX, pathY] ["/a".toList, "/a/b".toList]) pathX
      = none := by
  refine ⟨by decide, by decide, by decide, by decide⟩

/-! ### The merge loop -/

theorem mergeStep_acc (cfg : Config) (ok : Path → Bool) (st : FS × List Path) (df : Path) :
    ∃ t, (mergeStep cfg ok st df).2 = st.2 ++ df :: t := by
  rw [mergeStep]
  by_cases h1 : cfg.no_merge_existing_sidecars
  · exact ⟨[], by simp [h1]⟩
  · simp only [h1, Bool.false_eq_true, if_false, if_neg]
    by_cases h2 : fsExists st.1 (df ++ cfg.sidecar_extension) = true
    · by_cases h3 : cfg.no_delete_duplicate_sidecar
      · exact ⟨fsRead st.1 (df ++ cfg.sidecar_extension), by simp [h2, h3]⟩
      · exact ⟨fsRead st.1 (df ++ cfg.sidecar_extension), by simp [h2, h3]⟩
    · exact ⟨[], by simp [h2]⟩

theorem mergeFold_mem (cfg : Config) (ok : Path → Bool) :
    ∀ (dels : List Path) (st : FS × List Path) (x : Path),
      x ∈ st.2 → x ∈ (dels.foldl (mergeStep cfg ok) st).2 := by
  intro dels
  induction dels with
  | nil => intro st x hx; exact hx
  | cons df dels ih =>
    intro st x hx
    rw [List.foldl_cons]
    refine ih (mergeStep cfg ok st df) x ?_
    obtain ⟨t, ht⟩ := mergeStep_acc cfg ok st df
    rw [ht]
    exact List.mem_append_left _ hx

theorem mergeFold_mem_del (cfg : Config) (ok : Path → Bool) :
    ∀ (dels : List Path) (st : FS × List Path) (df : Path),
      df ∈ dels → df ∈ (dels.foldl (mergeStep cfg ok) st).2 := by
  intro dels
  induction dels with
  | nil => intro st df hdf; cases hdf
  | cons d dels ih =>
    intro st df hdf
    rw [List.foldl_cons]
    rcases List.mem_cons.1 hdf with rfl | hdf2
    · refine mergeFold_mem cfg ok dels (mergeStep cfg ok st df) df ?_
      obtain ⟨t, ht⟩ := mergeStep_acc cfg ok st df
      rw [ht]
      exact List.mem_append_right _ (List.mem_cons_self df t)
    · exact ih (mergeStep cfg ok st d) df hdf2

theorem sidecarLinesOf_congr (cfg : Config) (s1 s2 : FS) (d : Path)
    (h : s1 (d ++ cfg.sidecar_extension) = s2 (d ++ cfg.sidecar_extension)) :
    sidecarLinesOf cfg s1 d = sidecarLinesOf cfg s2 d := by
  rw [sidecarLinesOf, sidecarLinesOf, fsExists, fsExists, fsRead, fsRead, h]

theorem mergeStep_contents (cfg : Config) (ok : Path → Bool) (st : FS × List Path)
    (df : Path) (hm : cfg.no_merge_existing_sidecars = false) :
    (mergeStep cfg ok st df).2 = st.2 ++ df :: sidecarLinesOf cfg st.1 df := by
  rw [mergeStep, sidecarLinesOf]
  simp only [hm, Bool.false_eq_true, if_false]
  by_cases h2 : fsExists st.1 (df ++ cfg.sidecar_extension) = true
  · by_cases h3 : cfg.no_delete_duplicate_sidecar
    · simp [h2, h3]
    · simp [h2, h3]
  · simp [h2]

theorem mergeStep_frame (cfg : Config) (ok : Path → Bool) (st : FS × List Path)
    (df : Path) (q : Path) (hq : q ≠ df ++ cfg.sidecar_extension) :
    (mergeStep cfg ok st df).1 q = st.1 q := by
  rw [mergeStep]
  by_cases h1 : cfg.no_merge_existing_sidecars
  · simp [h1]
  · simp only [h1, Bool.false_eq_true, if_false]
    by_cases h2 : fsExists st.1 (df ++ cfg.sidecar_extension) = true
    · by_cases h3 : cfg.no_delete_duplicate_sidecar
      · simp [h2, h3]
      · simp only [h2, if_pos, h3, Bool.false_eq_true, if_false]
        rw [osRemove]
        by_cases h4 : (fsExists st.1 (df ++ cfg.sidecar_extension)
            && ok (df ++ cfg.sidecar_extension)) = true
        · rw [if_pos h4]
          simp [fsRemove, hq]
        · rw [if_neg h4]
    · simp [h2]

theorem mergeFold_spec (cfg : Config) (ok : Path → Bool)
    (hm : cfg.no_merge_existing_sidecars = false) :
    ∀ (dels : List Path) (st : FS × List Path), dels.Nodup →
      ((dels.foldl (mergeStep cfg ok) st).2 =
        st.2 ++ (dels.map (fun df => df :: sidecarLinesOf cfg st.1 df)).flatten)
      ∧ (∀ q : Path, (∀ df ∈ dels, q ≠ df ++ cfg.sidecar_extension) →
          (dels.foldl (mergeStep cfg ok) st).1 q = st.1 q) := by
  intro dels
  induction dels with
  | nil => intro st h; exact ⟨by simp, fun q hq => rfl⟩
  | cons df dels ih =>
    intro st hnd
    rw [List.nodup_cons] at hnd
    rw [List.foldl_cons]
    obtain ⟨ihc, ihf⟩ := ih (mergeStep cfg ok st df) hnd.2
    have hframe : ∀ d ∈ dels,
        (mergeStep cfg ok st df).1 (d ++ cfg.sidecar_extension) =
          st.1 (d ++ cfg.sidecar_extension) := by
      intro d hd
      refine mergeStep_frame cfg ok st df _ ?_
      intro hcontra
      exact hnd.1 (by rw [List.append_cancel_right hcontra] at hd; exact hd)
    constructor
    · rw [ihc, mergeStep_contents cfg ok st df hm]
      have hcong : dels.map (fun d => d :: sidecarLinesOf cfg (mergeStep cfg ok st df).1 d)
          = dels.map (fun d => d :: sidecarLinesOf cfg st.1 d) := by
        apply List.map_congr_left
        intro d hd
        rw [sidecarLinesOf_congr cfg _ _ d (hframe d hd)]
      rw [hcong, List.map_cons, List.flatten_cons, List.append_assoc]
    · intro q hq
      rw [ihf q (fun d hd => hq d (List.mem_cons_of_mem df hd)),
        mergeStep_frame cfg ok st df q (hq df (List.mem_cons_self df dels))]

/-! ### C9: deletion failures are contained -/

/-- C9: no deletion failure aborts a group: each file in the delete set is
removed exactly when it exists and its own removal succeeds, independently of
every other file's outcome; every delete-set path is recorded in the pending
sidecar contents regardless of its deletion outcome; and the survivor's
sidecar write still takes place (the survivor's sidecar entry is present
after processing). -/
theorem deletion_failure_resilience (cfg : Config) (ok : Path → Bool) (fs : FS)
    (keep : Path) (dels : List Path) :
    (∀ q : Path, deleteFold ok fs dels q =
        if q ∈ dels ∧ ok q = true then none else fs q)
    ∧ (∀ df ∈ dels,
        df ∈ (dels.foldl (mergeStep cfg ok) (deleteFold ok fs dels, [])).2)
    ∧ (processGroupReal cfg ok fs (keep :: dels)
        (keep ++ cfg.sidecar_extension)).isSome = true := by
  refine ⟨deleteFold_spec ok dels fs, ?_, ?_⟩
  · intro df hdf
    exact mergeFold_mem_del cfg ok dels (deleteFold ok fs dels, []) df hdf
  · simp only [processGroupReal]
    by_cases hex : fsExists (dels.foldl (mergeStep cfg ok) (deleteFold ok fs dels, [])).1
        (keep ++ cfg.sidecar_extension) = true
    · rw [if_pos hex]
      simp [fsAppend]
    · rw [if_neg hex]
      simp [fsWrite]

theorem deletion_failure_resilience_witness :
    (deleteFold okNone fsXY [pathY] pathY =
        if pathY ∈ [pathY] ∧ okNone pathY = true then none else fsXY pathY)
    ∧ pathY ∈ ([pathY].foldl (mergeStep cfgReal okNone) (deleteFold okNone fsXY [pathY], [])).2
    ∧ (processGroupReal cfgReal okNone fsXY (pathX :: [pathY])
        (pathX ++ cfgReal.sidecar_extension)).isSome = true :=
  ⟨(deletion_failure_resilience cfgReal okNone fsXY pathX [pathY]).1 pathY,
    (deletion_failure_resilience cfgReal okNone fsXY pathX [pathY]).2.1 pathY (by decide),
    (deletion_failure_resilience cfgReal okNone fsXY pathX [pathY]).2.2⟩

/-! ### C7: sidecar merge contents -/

theorem fsRead_fsAppend_self (s : FS) (p : Path) (ls : List Path) :
    fsRead (fsAppend s p ls) p = fsRead s p ++ ls := by
  rw [fsRead, fsAppend]
  simp [fsRead]

theorem fsRead_fsWrite_self (s : FS) (p : Path) (ls : List Path) :
    fsRead (fsWrite s p ls) p = ls := by
  rw [fsRead, fsWrite]
  simp

/-- Whatever is in the pending contents when the survivor's sidecar is
written ends up among the survivor's sidecar lines (lines 267–278), whether
the write appends or creates. -/
theorem mem_final_sidecar (cfg : Config) (ok : Path → Bool) (fs : FS)
    (keep : Path) (dels : List Path) (x : Path)
    (hx : x ∈ (dels.foldl (mergeStep cfg ok) (deleteFold ok fs dels, [])).2) :
    x ∈ fsRead (processGroupReal cfg ok fs (keep :: dels))
          (keep ++ cfg.sidecar_extension) := by
  simp only [processGroupReal]
  by_cases hex : fsExists (dels.foldl (mergeStep cfg ok) (deleteFold ok fs dels, [])).1
      (keep ++ cfg.sidecar_extension) = true
  · rw [if_pos hex, fsRead_fsAppend_self]
    exact List.mem_append_right _ hx
  · rw [if_neg hex, fsRead_fsWrite_self]
    exact hx

/-- At the first occurrence of a delete file `B` in the merge loop, `B`'s
sidecar is still as it was when the loop started (only sidecars of other,
distinct delete files can have been deleted earlier), so its lines are read
and appended then. -/
theorem mergeFold_reads_first (cfg : Config) (ok : Path → Bool)
    (hm : cfg.no_merge_existing_sidecars = false) :
    ∀ (dels : List Path) (st : FS × List Path) (B : Path), B ∈ dels →
      ∀ X ∈ sidecarLinesOf cfg st.1 B, X ∈ (dels.foldl (mergeStep cfg ok) st).2 := by
  intro dels
  induction dels with
  | nil => intro st B hB; cases hB
  | cons d dels ih =>
    intro st B hB X hX
    rw [List.foldl_cons]
    rcases List.mem_cons.1 hB with rfl | hB2
    · refine mergeFold_mem cfg ok dels (mergeStep cfg ok st B) X ?_
      rw [mergeStep_contents cfg ok st B hm]
      exact List.mem_append_right _ (List.mem_cons_of_mem B hX)
    · by_cases hdB : d = B
      · subst hdB
        refine mergeFold_mem cfg ok dels (mergeStep cfg ok st d) X ?_
        rw [mergeStep_contents cfg ok st d hm]
        exact List.mem_append_right _ (List.mem_cons_of_mem d hX)
      · refine ih (mergeStep cfg ok st d) B hB2 X ?_
        rw [sidecarLinesOf_congr cfg _ _ B
          (mergeStep_frame cfg ok st d _ (fun hc => hdB (List.append_cancel_right hc).symm))]
        exact hX

/-- C7 counterexample: with default options, nested priority directories give
the reachable ordered group `[x, y, x, y]` (delete set `[y, x, y]`).  The
deleted file `y` has a pre-existing sidecar containing `X`, yet the
survivor's sidecar afterwards holds `[y, X, x, y]`, not the claimed per-file
itemization `[y, X, x, y, X]`: at `y`'s second occurrence its sidecar has
already been merged and deleted, so its lines are not appended again. -/
theorem sidecar_merge_not_itemized :
    (get_directory_ordered_files id [pathX, pathY] ["/a".toList, "/a/b".toList]
        = [pathX, pathY, pathX, pathY])
    ∧ fsRead (processGroupReal cfgReal okAll fsC
          (get_directory_ordered_files id [pathX, pathY] ["/a".toList, "/a/b".toList]))
        (pathX ++ cfgReal.sidecar_extension)
      = [pathY, pathOldDup, pathX, pathY]
    ∧ ([pathY, pathX, pathY].map
        (fun df => df :: sidecarLinesOf cfgReal fsC df)).flatten
      = [pathY, pathOldDup, pathX, pathY, pathOldDup]
    ∧ fsRead (processGroupReal cfgReal okAll fsC
          (get_directory_ordered_files id [pathX, pathY] ["/a".toList, "/a/b".toList]))
        (pathX ++ cfgReal.sidecar_extension)
      ≠ ([pathY, pathX, pathY].map
          (fun df => df :: sidecarLinesOf cfgReal fsC df)).flatten := by
  refine ⟨by decide, by decide, by decide, by decide⟩

/-- C7 (amended): with sidecar merging enabled, every deleted file's path is
appended to the survivor's sidecar, and a deleted file B's pre-existing
sidecar lines are merged at B's first processing — so the survivor's sidecar
afterwards contains both B and each line X of B's sidecar whenever B's
sidecar path is not itself in the delete set; provenance chains are inherited
transitively.  The full per-file itemization (each delete-set entry
contributing its path followed by all of its pre-run sidecar lines) holds
when the delete set has no repeated entries and no delete file equals another
delete file's sidecar path; a repeated entry contributes its sidecar lines
only at its first occurrence, since the victim sidecar is deleted after the
first merge. -/
theorem sidecar_merge_contents (cfg : Config) (ok : Path → Bool) (fs : FS)
    (keep : Path) (dels : List Path)
    (hm : cfg.no_merge_existing_sidecars = false) :
    (∀ B ∈ dels,
        B ∈ fsRead (processGroupReal cfg ok fs (keep :: dels))
              (keep ++ cfg.sidecar_extension))
    ∧ (∀ B ∈ dels, (B ++ cfg.sidecar_extension) ∉ dels →
        ∀ X ∈ sidecarLinesOf cfg fs B,
          X ∈ fsRead (processGroupReal cfg ok fs (keep :: dels))
                (keep ++ cfg.sidecar_extension))
    ∧ (dels.Nodup → (∀ a ∈ dels, ∀ b ∈ dels, a ≠ b ++ cfg.sidecar_extension) →
        (dels.foldl (mergeStep cfg ok) (deleteFold ok fs dels, [])).2 =
          (dels.map (fun df => df :: sidecarLinesOf cfg fs df)).flatten) := by
  refine ⟨?_, ?_, ?_⟩
  · intro B hB
    exact mem_final_sidecar cfg ok fs keep dels B
      (mergeFold_mem_del cfg ok dels _ B hB)
  · intro B hB hBext X hX
    refine mem_final_sidecar cfg ok fs keep dels X ?_
    refine mergeFold_reads_first cfg ok hm dels (deleteFold ok fs dels, []) B hB X ?_
    have htransfer : deleteFold ok fs dels (B ++ cfg.sidecar_extension)
        = fs (B ++ cfg.sidecar_extension) := by
      rw [deleteFold_spec, if_neg]
      rintro ⟨hmem, -⟩
      exact hBext hmem
    rw [sidecarLinesOf_congr cfg _ _ B htransfer]
    exact hX
  · intro hnd hsep
    have hfs1 : ∀ d ∈ dels, deleteFold ok fs dels (d ++ cfg.sidecar_extension)
        = fs (d ++ cfg.sidecar_extension) := by
      intro d hd
      rw [deleteFold_spec, if_neg]
      rintro ⟨hmem, -⟩
      exact hsep _ hmem d hd rfl
    obtain ⟨hc, -⟩ := mergeFold_spec cfg ok hm dels (deleteFold ok fs dels, []) hnd
    rw [hc]
    simp only [List.nil_append]
    apply congrArg
    apply List.map_congr_left
    intro d hd
    rw [sidecarLinesOf_congr cfg _ _ d (hfs1 d hd)]

theorem sidecar_merge_contents_witness :
    (pathY ∈ fsRead (processGroupReal cfgReal okAll fsC
        (pathX :: [pathY, pathX, pathY])) (pathX ++ cfgReal.sidecar_extension))
    ∧ pathOldDup ∈ fsRead (processGroupReal cfgReal okAll fsC
        (pathX :: [pathY, pathX, pathY])) (pathX ++ cfgReal.sidecar_extension)
    ∧ (([pathB].foldl (mergeStep cfgReal okAll) (deleteFold okAll fsB [pathB], [])).2 =
        ([pathB].map (fun df => df :: sidecarLinesOf cfgReal fsB df)).flatten) :=
  ⟨(sidecar_merge_contents cfgReal okAll fsC pathX [pathY, pathX, pathY] rfl).1
      pathY (by decide),
    (sidecar_merge_contents cfgReal okAll fsC pathX [pathY, pathX, pathY] rfl).2.1
      pathY (by decide) (by decide) pathOldDup (by decide),
    (sidecar_merge_contents cfgReal okAll fsB keepA [pathB] rfl).2.2
      (by decide) (by decide)⟩

end JdupesSidecar
